import Mathlib

/-!
Verification of the i3monkit core: render primitives and their JSON wire
form (`src/protocol.rs`), the streaming protocol encoder (`I3Protocol`),
and the widget scheduler (`src/widget.rs`, `WidgetCollection::update_loop`).

Rust machine integers are modelled as `Nat`; `u8`/`u32` values are
unbounded here except where a claim constrains them, and the one place the
source can underflow a `usize` subtraction (`result_buffer.len() - 1` on an
empty buffer) is modelled as an explicit `Except.error` standing for the
Rust panic.  Wall-clock instants (`SystemTime`) and `Duration`s are
modelled as `Nat` time units; `SystemTime::now()` advances to the due time
of the event being served (the thread sleeps exactly until then, clamping
negative waits to zero).
-/

namespace I3monkit

/-- RGB color, from `pub struct ColorRGB(pub u8, pub u8, pub u8)`.
Channels are 8-bit in the source; modelled as `Nat`. -/
structure ColorRGB where
  r : Nat
  g : Nat
  b : Nat
deriving DecidableEq

/-- Markup option, from `enum MarkupLang { Text, Pango }`. -/
inductive MarkupLang where
  | Text
  | Pango
deriving DecidableEq

/-- A block shown on the status bar, from `struct Block` in protocol.rs.
The Rust field `instance` is a Lean keyword, hence `instance_`; its wire
name is still "instance". -/
structure Block where
  name : String
  instance_ : String
  full_text : String
  short_text : String
  color : Option ColorRGB
  markup : MarkupLang
deriving DecidableEq

/-- Protocol header, from `struct Header` in protocol.rs. -/
structure Header where
  version : Nat
  stop_signal : Option Nat
  cont_signal : Option Nat
  click_events : Option Bool
deriving DecidableEq

/-- `Header::new(version)`: default record with the version set. -/
def Header.new (version : Nat) : Header :=
  { version := version, stop_signal := none, cont_signal := none, click_events := none }

/-- Lowercase hexadecimal digit character for a value below 16. -/
def hexDigitChar (n : Nat) : Char :=
  if n = 0 then '0' else if n = 1 then '1' else if n = 2 then '2'
  else if n = 3 then '3' else if n = 4 then '4' else if n = 5 then '5'
  else if n = 6 then '6' else if n = 7 then '7' else if n = 8 then '8'
  else if n = 9 then '9' else if n = 10 then 'a' else if n = 11 then 'b'
  else if n = 12 then 'c' else if n = 13 then 'd' else if n = 14 then 'e'
  else 'f'

/-- Decimal digit character for a value below 10. -/
def decDigitChar (n : Nat) : Char :=
  if n = 0 then '0' else if n = 1 then '1' else if n = 2 then '2'
  else if n = 3 then '3' else if n = 4 then '4' else if n = 5 then '5'
  else if n = 6 then '6' else if n = 7 then '7' else if n = 8 then '8'
  else '9'

/-- Little-endian base-16 digits of `n`, with explicit fuel so the
definition is structural (the fuel `n + 1` always suffices). -/
def hexRevDigitsF : Nat → Nat → List Nat
  | 0, _ => []
  | f + 1, n => if n < 16 then [n] else n % 16 :: hexRevDigitsF f (n / 16)

/-- Minimal-width lowercase hex rendering, Rust `format!("{:x}", n)`. -/
def hexMinimal (n : Nat) : List Char :=
  ((hexRevDigitsF (n + 1) n).reverse).map hexDigitChar

/-- Width-2 zero-padded lowercase hex, Rust `format!("{:02x}", n)`. -/
def hexPad2 (n : Nat) : List Char :=
  if n < 16 then ['0', hexDigitChar n] else hexMinimal n

/-- Serialization of `ColorRGB`, from
`format!("#{:.2x}{:02x}{:02x}", self.0, self.1, self.2)`.
Rust ignores a precision flag (`.2`) on integer formatting, so the red
channel is rendered with minimal width, unlike the zero-padded green and
blue channels. -/
def colorChars (c : ColorRGB) : List Char :=
  '#' :: hexMinimal c.r ++ hexPad2 c.g ++ hexPad2 c.b

/-- Little-endian base-10 digits of `n`, with explicit structural fuel. -/
def decRevDigitsF : Nat → Nat → List Nat
  | 0, _ => []
  | f + 1, n => if n < 10 then [n] else n % 10 :: decRevDigitsF f (n / 10)

/-- Decimal rendering of a natural number, as serde_json renders a `u32`. -/
def renderNat (n : Nat) : List Char :=
  ((decRevDigitsF (n + 1) n).reverse).map decDigitChar

/-- JSON string escaping of one character, as serde_json escapes it:
quote and backslash get two-character escapes, the five shorthand control
characters get letter escapes, other control characters below 0x20 get a
`\u00XX` escape, everything else is written verbatim. -/
def escapeChar (c : Char) : List Char :=
  if c = '"' then ['\\', '"']
  else if c = '\\' then ['\\', '\\']
  else if c.toNat = 8 then ['\\', 'b']
  else if c.toNat = 9 then ['\\', 't']
  else if c.toNat = 10 then ['\\', 'n']
  else if c.toNat = 12 then ['\\', 'f']
  else if c.toNat = 13 then ['\\', 'r']
  else if c.toNat < 32 then
    ['\\', 'u', '0', '0', hexDigitChar (c.toNat / 16), hexDigitChar (c.toNat % 16)]
  else [c]

/-- JSON escaping of a whole string. -/
def escapeStr (s : List Char) : List Char :=
  (s.map escapeChar).flatten

/-- A JSON string literal: quote, escaped content, quote. -/
def strText (s : List Char) : List Char :=
  '"' :: escapeStr s ++ ['"']

/-- JSON values, used as the decoded form of the wire stream. -/
inductive Json where
  | str : List Char → Json
  | num : Nat → Json
  | bool : Bool → Json
  | arr : List Json → Json
  | obj : List (List Char × Json) → Json

/-- Comma-join a list of already rendered texts. -/
def joinComma : List (List Char) → List Char
  | [] => []
  | [t] => t
  | t :: ts => t ++ ',' :: joinComma ts

/-- The comma-prefixed continuation of a comma-joined list: what follows
the first element. -/
def sepTail : List (List Char) → List Char
  | [] => []
  | t :: ts => ',' :: t ++ sepTail ts

/-- One serialized field of an object: wire name, rendered value text, and
the JSON value that text denotes. -/
abbrev FieldT := List Char × List Char × Json

/-- Compact serde_json object text from a field list. -/
def objTextT (l : List FieldT) : List Char :=
  '{' :: joinComma (l.map fun t => strText t.1 ++ ':' :: t.2.1) ++ ['}']

/-- The JSON object a field list denotes. -/
def objJsonT (l : List FieldT) : Json :=
  Json.obj (l.map fun t => (t.1, t.2.2))

/-- Compact serde_json array text from (element text, element value) pairs. -/
def arrTextT (l : List (List Char × Json)) : List Char :=
  '[' :: joinComma (l.map Prod.fst) ++ [']']

/-- The JSON array a pair list denotes. -/
def arrJsonT (l : List (List Char × Json)) : Json :=
  Json.arr (l.map Prod.snd)

/-- JSON boolean literal text. -/
def boolText (b : Bool) : List Char :=
  if b then "true".data else "false".data

/-- Wire text of `MarkupLang` (`serialize_str("none")` / `"pango"`). -/
def markupChars : MarkupLang → List Char
  | MarkupLang.Text => "none".data
  | MarkupLang.Pango => "pango".data

/-- Serialized fields of `Header`, in declaration order, with the three
`skip_serializing_if = Option.is_none` fields omitted when unset. -/
def headerFieldsT (h : Header) : List FieldT :=
  ("version".data, renderNat h.version, Json.num h.version) ::
  ((match h.stop_signal with
    | some s => [("stop_signal".data, renderNat s, Json.num s)]
    | none => []) ++
   (match h.cont_signal with
    | some s => [("cont_signal".data, renderNat s, Json.num s)]
    | none => []) ++
   (match h.click_events with
    | some b => [("click_events".data, boolText b, Json.bool b)]
    | none => []))

/-- serde_json text of a `Header`. -/
def headerText (h : Header) : List Char :=
  objTextT (headerFieldsT h)

/-- The JSON object a `Header` serializes to. -/
def headerJson (h : Header) : Json :=
  objJsonT (headerFieldsT h)

/-- A string-valued object field. -/
def strFieldT (nm : List Char) (s : List Char) : FieldT :=
  (nm, strText s, Json.str s)

/-- Serialized fields of `Block`, in declaration order: `short_text` is
skipped when empty (`skip_serializing_if = String.is_empty`), `color` when
unset; `color` and `markup` serialize through `serialize_str`. -/
def blockFieldsT (b : Block) : List FieldT :=
  strFieldT "name".data b.name.data ::
  strFieldT "instance".data b.instance_.data ::
  strFieldT "full_text".data b.full_text.data ::
  ((if b.short_text = "" then [] else [strFieldT "short_text".data b.short_text.data]) ++
   (match b.color with
    | some c => [strFieldT "color".data (colorChars c)]
    | none => []) ++
   [strFieldT "markup".data (markupChars b.markup)])

/-- serde_json text of a `Block`. -/
def blockText (b : Block) : List Char :=
  objTextT (blockFieldsT b)

/-- The JSON object a `Block` serializes to. -/
def blockJson (b : Block) : Json :=
  objJsonT (blockFieldsT b)

/-- The (text, value) pairs of a serialized snapshot (`Vec<Block>`). -/
def snapPairs (snap : List Block) : List (List Char × Json) :=
  snap.map fun b => (blockText b, blockJson b)

/-- serde_json text of a snapshot. -/
def snapText (snap : List Block) : List Char :=
  arrTextT (snapPairs snap)

/-- The JSON array a snapshot serializes to. -/
def snapJson (snap : List Block) : Json :=
  arrJsonT (snapPairs snap)

/-- Insignificant JSON whitespace. -/
def isWsChar (c : Char) : Bool :=
  c == ' ' || c == '\n' || c == '\t' || c == '\r'

/-- Skip leading insignificant whitespace. -/
def skipWs : List Char → List Char
  | [] => []
  | c :: rest => if isWsChar c then skipWs rest else c :: rest

/-- ASCII decimal digit test. -/
def isDigitChar (c : Char) : Bool :=
  decide (48 ≤ c.toNat) && decide (c.toNat ≤ 57)

/-- Value of a hexadecimal digit character. -/
def hexVal (c : Char) : Option Nat :=
  if 48 ≤ c.toNat ∧ c.toNat ≤ 57 then some (c.toNat - 48)
  else if 97 ≤ c.toNat ∧ c.toNat ≤ 102 then some (c.toNat - 87)
  else if 65 ≤ c.toNat ∧ c.toNat ≤ 70 then some (c.toNat - 55)
  else none

mutual

/-- Scan the body of a JSON string literal (the opening quote already
consumed), unescaping as it goes; returns the content and the characters
after the closing quote. -/
def scanString : List Char → Option (List Char × List Char)
  | [] => none
  | c :: rest =>
    if c = '"' then some ([], rest)
    else if c = '\\' then scanEsc rest
    else if c.toNat < 32 then none
    else (scanString rest).map fun p => (c :: p.1, p.2)

/-- Scan what follows a backslash inside a string literal. -/
def scanEsc : List Char → Option (List Char × List Char)
  | [] => none
  | e :: rest2 =>
    if e = '"' ∨ e = '\\' ∨ e = '/' then
      (scanString rest2).map fun p => (e :: p.1, p.2)
    else if e = 'b' then (scanString rest2).map fun p => (Char.ofNat 8 :: p.1, p.2)
    else if e = 'f' then (scanString rest2).map fun p => (Char.ofNat 12 :: p.1, p.2)
    else if e = 'n' then (scanString rest2).map fun p => (Char.ofNat 10 :: p.1, p.2)
    else if e = 'r' then (scanString rest2).map fun p => (Char.ofNat 13 :: p.1, p.2)
    else if e = 't' then (scanString rest2).map fun p => (Char.ofNat 9 :: p.1, p.2)
    else if e = 'u' then scanU rest2
    else none

/-- Scan the four hex digits of a `\uXXXX` escape. -/
def scanU : List Char → Option (List Char × List Char)
  | h1 :: h2 :: h3 :: h4 :: rest3 =>
    match hexVal h1, hexVal h2, hexVal h3, hexVal h4 with
    | some a, some b, some c3, some d =>
      (scanString rest3).map fun p =>
        (Char.ofNat (((a * 16 + b) * 16 + c3) * 16 + d) :: p.1, p.2)
    | _, _, _, _ => none
  | _ => none

end

/-- Numeric value of a run of decimal digit characters, most significant
first. -/
def digitsVal (ds : List Char) : Nat :=
  ds.foldl (fun a c => 10 * a + (c.toNat - 48)) 0

mutual

/-- Fueled JSON value reader: skips whitespace, then dispatches on the
first significant character.  Fuel only bounds recursion depth; every
lemma below quantifies over all sufficiently large fuels. -/
def parseValue : Nat → List Char → Option (Json × List Char)
  | 0, _ => none
  | f + 1, cs =>
    match skipWs cs with
    | [] => none
    | c :: rest =>
      if c = '"' then (scanString rest).map fun p => (Json.str p.1, p.2)
      else if c = 't' then
        match rest with
        | 'r' :: 'u' :: 'e' :: rest2 => some (Json.bool true, rest2)
        | _ => none
      else if c = 'f' then
        match rest with
        | 'a' :: 'l' :: 's' :: 'e' :: rest2 => some (Json.bool false, rest2)
        | _ => none
      else if c = '[' then parseElems f rest
      else if c = '{' then parseFields f rest
      else if isDigitChar c then
        some (Json.num (digitsVal ((c :: rest).takeWhile isDigitChar)),
              (c :: rest).dropWhile isDigitChar)
      else none

/-- Read array elements after the opening bracket, then the closing one. -/
def parseElems : Nat → List Char → Option (Json × List Char)
  | 0, _ => none
  | f + 1, cs =>
    match skipWs cs with
    | [] => none
    | c :: rest =>
      if c = ']' then some (Json.arr [], rest)
      else
        match parseValue f cs with
        | none => none
        | some (j, cs1) =>
          match parseElemsTail f cs1 with
          | none => none
          | some (js, cs2) => some (Json.arr (j :: js), cs2)

/-- Read the rest of an array after at least one element has been read. -/
def parseElemsTail : Nat → List Char → Option (List Json × List Char)
  | 0, _ => none
  | f + 1, cs =>
    match skipWs cs with
    | [] => none
    | c :: rest =>
      if c = ']' then some ([], rest)
      else if c = ',' then
        match parseValue f rest with
        | none => none
        | some (j, cs1) =>
          match parseElemsTail f cs1 with
          | none => none
          | some (js, cs2) => some (j :: js, cs2)
      else none

/-- Read object fields after the opening brace, then the closing one. -/
def parseFields : Nat → List Char → Option (Json × List Char)
  | 0, _ => none
  | f + 1, cs =>
    match skipWs cs with
    | [] => none
    | c :: rest =>
      if c = '}' then some (Json.obj [], rest)
      else
        match parseOneField f cs with
        | none => none
        | some (fld, cs1) =>
          match parseFieldsTail f cs1 with
          | none => none
          | some (fs, cs2) => some (Json.obj (fld :: fs), cs2)

/-- Read one `"name": value` field. -/
def parseOneField : Nat → List Char → Option ((List Char × Json) × List Char)
  | 0, _ => none
  | f + 1, cs =>
    match skipWs cs with
    | [] => none
    | c :: rest =>
      if c = '"' then
        match scanString rest with
        | none => none
        | some (nm, cs1) =>
          match skipWs cs1 with
          | [] => none
          | c2 :: cs2 =>
            if c2 = ':' then
              match parseValue f cs2 with
              | none => none
              | some (v, cs3) => some ((nm, v), cs3)
            else none
      else none

/-- Read the rest of an object after at least one field has been read. -/
def parseFieldsTail : Nat → List Char → Option (List (List Char × Json) × List Char)
  | 0, _ => none
  | f + 1, cs =>
    match skipWs cs with
    | [] => none
    | c :: rest =>
      if c = '}' then some ([], rest)
      else if c = ',' then
        match parseOneField f rest with
        | none => none
        | some (fld, cs1) =>
          match parseFieldsTail f cs1 with
          | none => none
          | some (fs, cs2) => some (fld :: fs, cs2)
      else none

end

/-- Decode a byte stream as exactly two top-level JSON documents with
nothing but whitespace after them — the shape of the i3bar wire format:
one header object followed by one unbounded array. -/
def parseTwoDocs (f : Nat) (cs : List Char) : Option (Json × Json) :=
  match parseValue f cs with
  | none => none
  | some (d1, r1) =>
    match parseValue f r1 with
    | none => none
    | some (d2, r2) => if skipWs r2 = [] then some (d1, d2) else none

/-- The protocol encoder, from `struct I3Protocol<T: Write>`; the state is
the sequence of bytes written to the sink so far (the `BufWriter` flushes
on every `write`, so all bytes reach the sink). -/
structure I3Protocol where
  buf : List Char
deriving DecidableEq

/-- `I3Protocol::write`: writes the data followed by a newline, then
flushes.  Sink failures panic in the source (`expect("Cannot write")`);
the sink is infallible in this model. -/
def I3Protocol.write (st : I3Protocol) (data : List Char) : I3Protocol :=
  ⟨st.buf ++ data ++ ['\n']⟩

/-- `I3Protocol::write_json`: serializes and writes only on `Ok`
(`if let Ok(serialized) = serde_json::to_string(data)`).  The source is
generic over `S: Serialize`; the serialization result is therefore passed
in abstractly: `some s` for `Ok(s)`, `none` for `Err`. -/
def I3Protocol.write_json (st : I3Protocol) (ser : Option (List Char)) : I3Protocol :=
  match ser with
  | some s => st.write s
  | none => st

/-- `I3Protocol::new`: writes the header record, then the literal
`"[ []"` opening record.  Serializing a `Header` with serde_json never
fails, so its result is `some (headerText h)`. -/
def I3Protocol.new (h : Header) : I3Protocol :=
  (I3Protocol.write_json ⟨[]⟩ (some (headerText h))).write ('[' :: ' ' :: '[' :: ']' :: [])

/-- `I3Protocol::refresh` with the serialization result of the snapshot
passed in abstractly: first the comma record, then `write_json`. -/
def I3Protocol.refreshWith (st : I3Protocol) (ser : Option (List Char)) : I3Protocol :=
  (st.write [',']).write_json ser

/-- `I3Protocol::refresh`: serializing a `Vec<Block>` with serde_json
never fails, so the serialization result is `some (snapText status)`. -/
def I3Protocol.refresh (st : I3Protocol) (status : List Block) : I3Protocol :=
  st.refreshWith (some (snapText status))

/-- `Drop for I3Protocol`: the closing-array record written at teardown. -/
def I3Protocol.drop (st : I3Protocol) : I3Protocol :=
  st.write [']']

/-- All bytes written over a whole encoder lifetime: open, one `refresh`
per snapshot in order, teardown. -/
def protocolStream (h : Header) (snaps : List (List Block)) : List Char :=
  ((snaps.foldl I3Protocol.refresh (I3Protocol.new h)).drop).buf

/-- All bytes written when one `refresh` call's serialization fails
between the `pre` and `post` snapshots. -/
def badStream (h : Header) (pre post : List (List Block)) : List Char :=
  ((post.foldl I3Protocol.refresh
      ((pre.foldl I3Protocol.refresh (I3Protocol.new h)).refreshWith none)).drop).buf

/-- One poll's result, from `struct WidgetUpdate` in widget.rs:
`refresh_interval: Duration` (time units) and `data: Option<Block>`. -/
structure WidgetUpdate where
  refresh_interval : Nat
  data : Option Block
deriving DecidableEq

/-- A pending poll event, from `struct RefreshEvent(SystemTime, usize)`. -/
structure RefreshEvent where
  time : Nat
  idx : Nat
deriving DecidableEq

/-- The `Ord` impl on `RefreshEvent`: `Ord::cmp(&that.0, &self.0)` — the
comparison is inverted and looks only at the due time, so Rust's
max-first `BinaryHeap` yields the event with the smallest due time. -/
def RefreshEvent.cmp (self that : RefreshEvent) : Ordering :=
  compare that.time self.time

/-- Pop a greatest element with respect to `RefreshEvent.cmp` — the
contract of `BinaryHeap::pop` under the source's `Ord` impl.  Ties are
broken towards the front of the list (the source leaves ties
unspecified). -/
def heapPop : List RefreshEvent → Option (RefreshEvent × List RefreshEvent)
  | [] => none
  | e :: rest =>
    match heapPop rest with
    | none => some (e, rest)
    | some (m, rest2) =>
      match RefreshEvent.cmp e m with
      | Ordering.lt => some (m, e :: rest2)
      | _ => some (e, rest)

/-- The observable behaviour of one widget: its `update()` result as a
function of how many times it has been polled before. -/
abbrev WidgetBehavior := Nat → Option WidgetUpdate

/-- The scheduler state of `WidgetCollection::update_loop`: per-widget
poll counts (standing for the widgets' internal mutable state), the
widget-to-slot map `idx_map`, the pending events, the snapshot buffer,
the current time, and the trace of snapshots handed to
`I3Protocol::refresh`. -/
structure SchedulerState where
  polls : List Nat
  idx_map : List Nat
  event_queue : List RefreshEvent
  result_buffer : List Block
  now : Nat
  emitted : List (List Block)
deriving DecidableEq

/-- The empty state a fresh `WidgetCollection` starts the loop with. -/
def initState : SchedulerState :=
  ⟨[], [], [], [], 0, []⟩

/-- One widget's priming poll, from the first `for` loop of
`update_loop`: on `Some(result)` an event at `now + refresh_interval` is
pushed, the segment (if any) is appended to `result_buffer`, and
`result_buffer.len() - 1` is pushed onto `idx_map`; when the buffer is
empty that `usize` subtraction underflows, which panics in Rust and is
`Except.error ()` here.  On `None` the sentinel `size` (the widget count)
is pushed instead. -/
def primeOne (size : Nat) (idx : Nat) (b : WidgetBehavior) (st : SchedulerState) :
    Except Unit SchedulerState :=
  match b 0 with
  | some result =>
    let queue1 := st.event_queue ++ [⟨st.now + result.refresh_interval, idx⟩]
    let buf1 := match result.data with
      | some d => st.result_buffer ++ [d]
      | none => st.result_buffer
    if buf1.length = 0 then Except.error ()
    else Except.ok { st with polls := st.polls ++ [1], event_queue := queue1,
                             result_buffer := buf1,
                             idx_map := st.idx_map ++ [buf1.length - 1] }
  | none => Except.ok { st with polls := st.polls ++ [1], idx_map := st.idx_map ++ [size] }

/-- The priming pass over the widgets from index `idx` on. -/
def primeAllAux (size : Nat) (idx : Nat) (bs : List WidgetBehavior) (st : SchedulerState) :
    Except Unit SchedulerState :=
  match bs with
  | [] => Except.ok st
  | b :: rest =>
    match primeOne size idx b st with
    | Except.error e => Except.error e
    | Except.ok st1 => primeAllAux size (idx + 1) rest st1

/-- The whole priming pass of `update_loop`. -/
def primeAll (bs : List WidgetBehavior) : Except Unit SchedulerState :=
  primeAllAux bs.length 0 bs initState

/-- One iteration of the event loop of `update_loop`: pop the next event,
sleep until it is due (negative waits clamp to zero), poll the owning
widget; on `None` the widget is dropped from scheduling and nothing else
happens; on `Some`, a carried segment overwrites
`result_buffer[idx_map[idx]]`, a new event is pushed at
`now + refresh_interval`, and the buffer is handed to
`I3Protocol::refresh`.  Returns `none` when the queue is empty and the
loop terminates. -/
def loopStep (bs : List WidgetBehavior) (st : SchedulerState) : Option SchedulerState :=
  match heapPop st.event_queue with
  | none => none
  | some (e, rest) =>
    match (bs.getD e.idx (fun _ => none)) (st.polls.getD e.idx 0) with
    | none =>
      some { st with event_queue := rest, now := max st.now e.time,
                     polls := st.polls.set e.idx (st.polls.getD e.idx 0 + 1) }
    | some update =>
      match update.data with
      | none =>
        some { st with
          event_queue := rest ++ [⟨max st.now e.time + update.refresh_interval, e.idx⟩],
          now := max st.now e.time,
          polls := st.polls.set e.idx (st.polls.getD e.idx 0 + 1),
          emitted := st.emitted ++ [st.result_buffer] }
      | some d =>
        some { st with
          result_buffer := st.result_buffer.set (st.idx_map.getD e.idx 0) d,
          event_queue := rest ++ [⟨max st.now e.time + update.refresh_interval, e.idx⟩],
          now := max st.now e.time,
          polls := st.polls.set e.idx (st.polls.getD e.idx 0 + 1),
          emitted := st.emitted ++ [st.result_buffer.set (st.idx_map.getD e.idx 0) d] }

/-- Run at most `fuel` iterations of the event loop (the real loop runs
until the queue is empty; fuel only truncates the unbounded run). -/
def runLoop (bs : List WidgetBehavior) : Nat → SchedulerState → SchedulerState
  | 0, st => st
  | f + 1, st =>
    match loopStep bs st with
    | none => st
    | some st1 => runLoop bs f st1

/-- `WidgetCollection::update_loop`: the priming pass, then the event
loop (truncated at `fuel` iterations). -/
def update_loop (bs : List WidgetBehavior) (fuel : Nat) : Except Unit SchedulerState :=
  (primeAll bs).map (runLoop bs fuel)

/-- The decorator's `update`, from `impl Widget for WidgetDecorator`: the
inner widget's result with the stored mutation applied to the data
payload when one is present.  The inner widget's result and the `FnMut`
mutation are passed in directly. -/
def WidgetDecorator.update (inner : Option WidgetUpdate) (proc : Block → Block) :
    Option WidgetUpdate :=
  match inner with
  | some inner_result =>
    some { inner_result with
           data := match inner_result.data with
                   | some d => some (proc d)
                   | none => none }
  | none => none

/-- A plain block whose `full_text` is the given string, as built by
`Block::new().append_full_text(..)`. -/
def mkBlock (text : String) : Block :=
  ⟨"", "", text, "", none, MarkupLang.Text⟩

/-- Concrete segment used by the counterexample scenarios. -/
def blockA : Block := mkBlock "A"

/-- Concrete segment used by the counterexample scenarios. -/
def blockB : Block := mkBlock "B"

/-- Two widgets: the first yields a segment on every poll, the second
always yields an outcome with no segment. -/
def bsC1 : List WidgetBehavior :=
  [fun _ => some ⟨5, some blockA⟩, fun _ => some ⟨5, none⟩]

/-- A single widget whose first poll yields an outcome with no segment. -/
def bsC9 : List WidgetBehavior :=
  [fun _ => some ⟨5, none⟩]

/-- Widget 0 yields segment `A` then permanently completes; widget 1
yields no segment first, then yields segment `B`. -/
def bsC4 : List WidgetBehavior :=
  [fun k => if k = 0 then some ⟨5, some blockA⟩ else none,
   fun k => if k = 0 then some ⟨10, none⟩ else some ⟨7, some blockB⟩]

/-- A single widget that always polls to an outcome with no segment. -/
def bsC5 : List WidgetBehavior :=
  [fun _ => some ⟨3, none⟩]

/-- A mid-loop scheduler state: one widget at slot 0, segment `A` in the
buffer, one pending event due at time 2. -/
def stC5 : SchedulerState :=
  ⟨[1], [0], [⟨2, 0⟩], [blockA], 0, []⟩

/-- True when the remainder does not begin with a decimal digit (so a
number literal just before it cannot absorb part of it). -/
def nonDigitHead : List Char → Bool
  | [] => true
  | c :: _ => !(isDigitChar c)

/-- The text `t` decodes, as a JSON value followed by anything that does
not start with a digit, to exactly `j`, consuming exactly `t`, for every
large enough fuel. -/
def ParsesTo (t : List Char) (j : Json) : Prop :=
  ∃ f0, ∀ f, f0 ≤ f → ∀ rest, nonDigitHead rest = true →
    parseValue f (t ++ rest) = some (j, rest)

/-- The byte layout the encoder produces after the `"[ []"` record's
newline: one `",\n" ++ text ++ "\n"` group per `refresh` call. -/
def emitsTailText : List (List Char) → List Char
  | [] => []
  | t :: ts => ',' :: '\n' :: t ++ '\n' :: emitsTailText ts

/-- C3, at the failing input: the claim says every `ColorRGB` serializes
to `'#'` plus six zero-padded hex digits (7 characters).  The source
formats the red channel with `{:.2x}`, and Rust ignores a precision flag
on integer formatting, so red is not padded: `ColorRGB(0,0,0)` serializes
to the 6-character `"#00000"`. -/
theorem color_serialize_not_padded :
    colorChars ⟨0, 0, 0⟩ = '#' :: '0' :: '0' :: '0' :: '0' :: '0' :: [] ∧
    (colorChars ⟨0, 0, 0⟩).length = 6 :=
  ⟨rfl, rfl⟩

/-- C7: the decorator's `update` forwards the inner widget's result,
applying the stored mutation to the data payload exactly when the inner
outcome carries one, and passing permanent completion (`None`) and
payload-free outcomes through unchanged. -/
theorem decorator_update_contract (proc : Block → Block) (d : Nat) (b : Block) :
    WidgetDecorator.update (some ⟨d, some b⟩) proc = some ⟨d, some (proc b)⟩ ∧
    WidgetDecorator.update (some ⟨d, none⟩) proc = some ⟨d, none⟩ ∧
    WidgetDecorator.update none proc = none :=
  ⟨rfl, rfl, rfl⟩

/-- C8: when serialization of a value fails, `write_json` writes nothing
at all — the sink bytes are unchanged — and the encoder keeps working:
any later write produces exactly what it would have produced anyway. -/
theorem write_json_skips_failed_serialization (st : I3Protocol) (data : List Char) :
    I3Protocol.write_json st none = st ∧
    (I3Protocol.write_json st none).write data = st.write data :=
  ⟨rfl, rfl⟩

/-- C1, at the failing input: with widget 0 contributing a segment and
widget 1's first poll yielding an outcome with no segment, the priming
pass records `idx_map = [0, 0]`: widget 1 gets `result_buffer.len() - 1
= 0` — widget 0's slot — rather than the no-slot sentinel, which is the
widget count `2` (pushed only for permanently completed widgets). -/
theorem priming_no_segment_aliases_slot :
    (primeAll bsC1).map SchedulerState.idx_map = Except.ok [0, 0] ∧
    bsC1.length = 2 ∧ List.getD [0, 0] 1 0 ≠ 2 :=
  ⟨rfl, rfl, by decide⟩

/-- C9: a widget whose first poll yields an outcome with no segment while
`result_buffer` is still empty makes `result_buffer.len() - 1` underflow,
so `update_loop` panics (modelled as `Except.error`) instead of recording
a no-slot sentinel for that widget. -/
theorem priming_underflow_panics :
    primeAll bsC9 = Except.error () :=
  rfl

/-- C4, at the failing input: widget 0 contributes segment `A` at
priming (slot 0) and permanently completes on its second poll at time 5;
widget 1's first poll yields no segment, so it is recorded with the
aliased slot 0, and its second poll at time 10 overwrites widget 0's
segment.  The snapshot emitted after widget 0's completion holds `B`, not
the frozen `A` the claim requires. -/
theorem completed_widget_segment_overwritten :
    (primeAll bsC4).map SchedulerState.result_buffer = Except.ok [blockA] ∧
    (update_loop bsC4 2).map SchedulerState.emitted = Except.ok [[blockB]] ∧
    blockB ≠ blockA :=
  ⟨rfl, rfl, by decide⟩

/-- Popping a nonempty queue always yields an event. -/
theorem heapPop_cons_isSome (a : RefreshEvent) (q : List RefreshEvent) :
    (heapPop (a :: q)).isSome := by
  cases hq : heapPop q with
  | none => simp [heapPop, hq]
  | some p =>
    rcases p with ⟨m, r⟩
    cases hc : RefreshEvent.cmp a m <;> simp [heapPop, hq, hc]

/-- C6: the event the loop removes from the pending queue (`heapPop`,
the model of `BinaryHeap::pop` under the inverted `Ord` on
`RefreshEvent`, which is what `loopStep` removes) has the earliest due
time among all pending events. -/
theorem heapPop_earliest (q : List RefreshEvent) (e : RefreshEvent)
    (rest : List RefreshEvent) (h : heapPop q = some (e, rest)) :
    ∀ x ∈ q, e.time ≤ x.time := by
  induction q generalizing e rest with
  | nil => simp [heapPop] at h
  | cons a q ih =>
    cases hq : heapPop q with
    | none =>
      have hqnil : q = [] := by
        cases q with
        | nil => rfl
        | cons b q2 =>
          have hs := heapPop_cons_isSome b q2
          rw [hq] at hs
          simp at hs
      subst hqnil
      rw [heapPop, hq] at h
      obtain ⟨rfl, rfl⟩ : a = e ∧ [] = rest := by
        constructor <;> { cases h; rfl }
      intro x hx
      rcases List.mem_singleton.mp hx with rfl
      exact Nat.le_refl _
    | some p =>
      rcases p with ⟨m, r2⟩
      cases hc : RefreshEvent.cmp a m with
      | lt =>
        simp only [heapPop, hq, hc] at h
        have hem : e = m ∧ rest = a :: r2 := by cases h; exact ⟨rfl, rfl⟩
        obtain ⟨rfl, -⟩ := hem
        intro x hx
        rcases List.mem_cons.mp hx with rfl | hx
        · exact Nat.le_of_lt (Nat.compare_eq_lt.mp hc)
        · exact ih e r2 hq x hx
      | eq =>
        simp only [heapPop, hq, hc] at h
        have hea : e = a ∧ rest = q := by cases h; exact ⟨rfl, rfl⟩
        obtain ⟨rfl, -⟩ := hea
        intro x hx
        rcases List.mem_cons.mp hx with rfl | hx
        · exact Nat.le_refl _
        · have heq : m.time = e.time := Nat.compare_eq_eq.mp hc
          exact heq ▸ ih m r2 hq x hx
      | gt =>
        simp only [heapPop, hq, hc] at h
        have hea : e = a ∧ rest = q := by cases h; exact ⟨rfl, rfl⟩
        obtain ⟨rfl, -⟩ := hea
        intro x hx
        rcases List.mem_cons.mp hx with rfl | hx
        · exact Nat.le_refl _
        · have hlt : e.time < m.time := Nat.compare_eq_gt.mp hc
          exact Nat.le_trans (Nat.le_of_lt hlt) (ih m r2 hq x hx)

/-- Witness for `heapPop_earliest` at a concrete two-event queue. -/
theorem heapPop_earliest_witness :
    RefreshEvent.time ⟨3, 1⟩ ≤ RefreshEvent.time ⟨5, 0⟩ :=
  heapPop_earliest [⟨5, 0⟩, ⟨3, 1⟩] ⟨3, 1⟩ [⟨5, 0⟩] rfl ⟨5, 0⟩
    (List.mem_cons_self _ _)

/-- C5: when the polled widget's outcome carries no segment, the loop
step leaves the snapshot buffer exactly as it was, reschedules the
widget at the post-sleep `now` plus its `refresh_interval`, and still
hands the unchanged buffer to `I3Protocol::refresh` (recorded on the
emission trace). -/
theorem no_segment_poll_keeps_snapshot (bs : List WidgetBehavior) (st : SchedulerState)
    (e : RefreshEvent) (rest : List RefreshEvent) (d : Nat)
    (hpop : heapPop st.event_queue = some (e, rest))
    (hresp : (bs.getD e.idx (fun _ => none)) (st.polls.getD e.idx 0) = some ⟨d, none⟩) :
    ∃ st1, loopStep bs st = some st1 ∧
      st1.result_buffer = st.result_buffer ∧
      st1.emitted = st.emitted ++ [st.result_buffer] ∧
      st1.event_queue = rest ++ [⟨max st.now e.time + d, e.idx⟩] := by
  have hstep : loopStep bs st = some { st with
      event_queue := rest ++ [(⟨max st.now e.time + d, e.idx⟩ : RefreshEvent)],
      now := max st.now e.time,
      polls := st.polls.set e.idx (st.polls.getD e.idx 0 + 1),
      emitted := st.emitted ++ [st.result_buffer] } := by
    simp only [loopStep, hpop, hresp]
  exact ⟨_, hstep, rfl, rfl, rfl⟩

/-- Fuel monotonicity of the six mutually recursive readers: a successful
parse stays the same successful parse at every larger fuel. -/
theorem parse_mono_all (f : Nat) :
    (∀ g cs r, f ≤ g → parseValue f cs = some r → parseValue g cs = some r) ∧
    (∀ g cs r, f ≤ g → parseElems f cs = some r → parseElems g cs = some r) ∧
    (∀ g cs r, f ≤ g → parseElemsTail f cs = some r → parseElemsTail g cs = some r) ∧
    (∀ g cs r, f ≤ g → parseFields f cs = some r → parseFields g cs = some r) ∧
    (∀ g cs r, f ≤ g → parseOneField f cs = some r → parseOneField g cs = some r) ∧
    (∀ g cs r, f ≤ g → parseFieldsTail f cs = some r → parseFieldsTail g cs = some r) := by
  induction f with
  | zero =>
    refine ⟨?_, ?_, ?_, ?_, ?_, ?_⟩ <;>
      · intro g cs r hle h
        simp only [parseValue, parseElems, parseElemsTail, parseFields, parseOneField,
          parseFieldsTail] at h
        exact Option.noConfusion h
  | succ f ih =>
    obtain ⟨ihV, ihE, ihET, ihF, ihOF, ihFT⟩ := ih
    refine ⟨?_, ?_, ?_, ?_, ?_, ?_⟩
    · intro g cs r hle h
      cases g with
      | zero => omega
      | succ g2 =>
        have hf : f ≤ g2 := by omega
        cases hsk : skipWs cs with
        | nil => simp only [parseValue, hsk] at h; exact Option.noConfusion h
        | cons c rest =>
          simp only [parseValue, hsk] at h ⊢
          by_cases h1 : c = '"'
          · rw [if_pos h1] at h ⊢; exact h
          · rw [if_neg h1] at h ⊢
            by_cases h2 : c = 't'
            · rw [if_pos h2] at h ⊢; exact h
            · rw [if_neg h2] at h ⊢
              by_cases h3 : c = 'f'
              · rw [if_pos h3] at h ⊢; exact h
              · rw [if_neg h3] at h ⊢
                by_cases h4 : c = '['
                · rw [if_pos h4] at h ⊢; exact ihE g2 rest r hf h
                · rw [if_neg h4] at h ⊢
                  by_cases h5 : c = '{'
                  · rw [if_pos h5] at h ⊢; exact ihF g2 rest r hf h
                  · rw [if_neg h5] at h ⊢
                    by_cases h6 : isDigitChar c = true
                    · rw [if_pos h6] at h ⊢; exact h
                    · rw [if_neg h6] at h ⊢; exact h
    · intro g cs r hle h
      cases g with
      | zero => omega
      | succ g2 =>
        have hf : f ≤ g2 := by omega
        cases hsk : skipWs cs with
        | nil => simp only [parseElems, hsk] at h; exact Option.noConfusion h
        | cons c rest =>
          simp only [parseElems, hsk] at h ⊢
          by_cases h1 : c = ']'
          · rw [if_pos h1] at h ⊢; exact h
          · rw [if_neg h1] at h ⊢
            cases hv : parseValue f cs with
            | none => simp only [hv] at h; exact Option.noConfusion h
            | some p =>
              rcases p with ⟨j, cs1⟩
              simp only [hv] at h
              simp only [ihV g2 cs (j, cs1) hf hv]
              cases het : parseElemsTail f cs1 with
              | none => simp only [het] at h; exact Option.noConfusion h
              | some q =>
                rcases q with ⟨js, cs2⟩
                simp only [het] at h
                simp only [ihET g2 cs1 (js, cs2) hf het]
                exact h
    · intro g cs r hle h
      cases g with
      | zero => omega
      | succ g2 =>
        have hf : f ≤ g2 := by omega
        cases hsk : skipWs cs with
        | nil => simp only [parseElemsTail, hsk] at h; exact Option.noConfusion h
        | cons c rest =>
          simp only [parseElemsTail, hsk] at h ⊢
          by_cases h1 : c = ']'
          · rw [if_pos h1] at h ⊢; exact h
          · rw [if_neg h1] at h ⊢
            by_cases h2 : c = ','
            · rw [if_pos h2] at h ⊢
              cases hv : parseValue f rest with
              | none => simp only [hv] at h; exact Option.noConfusion h
              | some p =>
                rcases p with ⟨j, cs1⟩
                simp only [hv] at h
                simp only [ihV g2 rest (j, cs1) hf hv]
                cases het : parseElemsTail f cs1 with
                | none => simp only [het] at h; exact Option.noConfusion h
                | some q =>
                  rcases q with ⟨js, cs2⟩
                  simp only [het] at h
                  simp only [ihET g2 cs1 (js, cs2) hf het]
                  exact h
            · rw [if_neg h2] at h ⊢; exact h
    · intro g cs r hle h
      cases g with
      | zero => omega
      | succ g2 =>
        have hf : f ≤ g2 := by omega
        cases hsk : skipWs cs with
        | nil => simp only [parseFields, hsk] at h; exact Option.noConfusion h
        | cons c rest =>
          simp only [parseFields, hsk] at h ⊢
          by_cases h1 : c = '}'
          · rw [if_pos h1] at h ⊢; exact h
          · rw [if_neg h1] at h ⊢
            cases hv : parseOneField f cs with
            | none => simp only [hv] at h; exact Option.noConfusion h
            | some p =>
              rcases p with ⟨fld, cs1⟩
              simp only [hv] at h
              simp only [ihOF g2 cs (fld, cs1) hf hv]
              cases het : parseFieldsTail f cs1 with
              | none => simp only [het] at h; exact Option.noConfusion h
              | some q =>
                rcases q with ⟨fs, cs2⟩
                simp only [het] at h
                simp only [ihFT g2 cs1 (fs, cs2) hf het]
                exact h
    · intro g cs r hle h
      cases g with
      | zero => omega
      | succ g2 =>
        have hf : f ≤ g2 := by omega
        cases hsk : skipWs cs with
        | nil => simp only [parseOneField, hsk] at h; exact Option.noConfusion h
        | cons c rest =>
          simp only [parseOneField, hsk] at h ⊢
          by_cases h1 : c = '"'
          · rw [if_pos h1] at h ⊢
            cases hs : scanString rest with
            | none => simp only [hs] at h; exact Option.noConfusion h
            | some p =>
              rcases p with ⟨nm, cs1⟩
              simp only [hs] at h ⊢
              cases hsk2 : skipWs cs1 with
              | nil => simp only [hsk2] at h; exact Option.noConfusion h
              | cons c2 cs2 =>
                simp only [hsk2] at h ⊢
                by_cases h2 : c2 = ':'
                · rw [if_pos h2] at h ⊢
                  cases hv : parseValue f cs2 with
                  | none => simp only [hv] at h; exact Option.noConfusion h
                  | some q =>
                    rcases q with ⟨v, cs3⟩
                    simp only [hv] at h
                    simp only [ihV g2 cs2 (v, cs3) hf hv]
                    exact h
                · rw [if_neg h2] at h ⊢; exact h
          · rw [if_neg h1] at h ⊢; exact h
    · intro g cs r hle h
      cases g with
      | zero => omega
      | succ g2 =>
        have hf : f ≤ g2 := by omega
        cases hsk : skipWs cs with
        | nil => simp only [parseFieldsTail, hsk] at h; exact Option.noConfusion h
        | cons c rest =>
          simp only [parseFieldsTail, hsk] at h ⊢
          by_cases h1 : c = '}'
          · rw [if_pos h1] at h ⊢; exact h
          · rw [if_neg h1] at h ⊢
            by_cases h2 : c = ','
            · rw [if_pos h2] at h ⊢
              cases hv : parseOneField f rest with
              | none => simp only [hv] at h; exact Option.noConfusion h
              | some p =>
                rcases p with ⟨fld, cs1⟩
                simp only [hv] at h
                simp only [ihOF g2 rest (fld, cs1) hf hv]
                cases het : parseFieldsTail f cs1 with
                | none => simp only [het] at h; exact Option.noConfusion h
                | some q =>
                  rcases q with ⟨fs, cs2⟩
                  simp only [het] at h
                  simp only [ihFT g2 cs1 (fs, cs2) hf het]
                  exact h
            · rw [if_neg h2] at h ⊢; exact h

/-- Fuel monotonicity of `parseValue`, stand-alone form. -/
theorem parseValue_mono {f g : Nat} {cs : List Char} {r : Json × List Char}
    (hle : f ≤ g) (h : parseValue f cs = some r) : parseValue g cs = some r :=
  (parse_mono_all f).1 g cs r hle h

/-- Fuel monotonicity of `parseElemsTail`, stand-alone form. -/
theorem parseElemsTail_mono {f g : Nat} {cs : List Char}
    {r : List Json × List Char} (hle : f ≤ g) (h : parseElemsTail f cs = some r) :
    parseElemsTail g cs = some r :=
  (parse_mono_all f).2.2.1 g cs r hle h

/-- Numeric value of a decimal digit character. -/
theorem decDigitChar_toNat {d : Nat} (hd : d < 10) : (decDigitChar d).toNat = 48 + d := by
  interval_cases d <;> rfl

/-- Decimal digit characters pass the digit test. -/
theorem isDigitChar_decDigitChar {d : Nat} (hd : d < 10) :
    isDigitChar (decDigitChar d) = true := by
  interval_cases d <;> rfl

/-- Hex digit characters evaluate back to their value. -/
theorem hexVal_hexDigitChar (k : Nat) (hk : k < 16) : hexVal (hexDigitChar k) = some k := by
  interval_cases k <;> decide

/-- All digits produced by `decRevDigitsF` are below 10. -/
theorem decRevDigitsF_lt (f : Nat) : ∀ n, n < f → ∀ d ∈ decRevDigitsF f n, d < 10 := by
  induction f with
  | zero => intro n hn; omega
  | succ f ih =>
    intro n hn d hd
    by_cases h10 : n < 10
    · simp only [decRevDigitsF, if_pos h10] at hd
      simp at hd
      omega
    · simp only [decRevDigitsF, if_neg h10] at hd
      rcases List.mem_cons.mp hd with rfl | hd2
      · omega
      · exact ih (n / 10) (by omega) d hd2

/-- `decRevDigitsF` never produces the empty digit list. -/
theorem decRevDigitsF_ne_nil (f n : Nat) (hn : n < f) : decRevDigitsF f n ≠ [] := by
  cases f with
  | zero => omega
  | succ f => by_cases h10 : n < 10 <;> simp [decRevDigitsF, h10]

/-- Folding the rendered digits back, with an arbitrary accumulator. -/
theorem foldl_digits (f : Nat) : ∀ n, n < f → ∀ acc : Nat,
    ((decRevDigitsF f n).reverse.map decDigitChar).foldl
        (fun a c => 10 * a + (c.toNat - 48)) acc
      = acc * 10 ^ (decRevDigitsF f n).length + n := by
  induction f with
  | zero => intro n hn; omega
  | succ f ih =>
    intro n hn acc
    by_cases h10 : n < 10
    · simp only [decRevDigitsF, if_pos h10, List.reverse_cons, List.reverse_nil,
        List.nil_append, List.map_cons, List.map_nil, List.foldl_cons, List.foldl_nil,
        List.length_cons, List.length_nil]
      rw [decDigitChar_toNat h10]
      omega
    · simp only [decRevDigitsF, if_neg h10, List.reverse_cons, List.map_append,
        List.foldl_append, List.map_cons, List.map_nil, List.foldl_cons, List.foldl_nil,
        List.length_cons]
      rw [ih (n / 10) (by omega) acc]
      rw [decDigitChar_toNat (show n % 10 < 10 by omega)]
      have hsub : 48 + n % 10 - 48 = n % 10 := by omega
      rw [hsub, pow_succ]
      have key : ∀ K A B : Nat,
          10 * (A * K + B) + n % 10 = A * (K * 10) + (10 * B + n % 10) := by
        intro K A B; ring
      rw [key, Nat.div_add_mod n 10]

/-- Round trip of the decimal rendering through `digitsVal`. -/
theorem digitsVal_renderNat (n : Nat) : digitsVal (renderNat n) = n := by
  have h := foldl_digits (n + 1) n (by omega) 0
  simpa [digitsVal, renderNat] using h

/-- Every character of a rendered number is a digit. -/
theorem renderNat_all_digits (n : Nat) : ∀ c ∈ renderNat n, isDigitChar c = true := by
  intro c hc
  simp only [renderNat, List.mem_map, List.mem_reverse] at hc
  obtain ⟨d, hd, rfl⟩ := hc
  exact isDigitChar_decDigitChar (decRevDigitsF_lt (n + 1) n (by omega) d hd)

/-- Rendered numbers are nonempty. -/
theorem renderNat_ne_nil (n : Nat) : renderNat n ≠ [] := by
  simp only [renderNat]
  intro h
  exact decRevDigitsF_ne_nil (n + 1) n (by omega) (by simpa using h)

/-- `takeWhile`/`dropWhile` split of a satisfying list in front of a
non-satisfying remainder. -/
theorem takeWhile_all_append (p : Char → Bool) (l r : List Char)
    (hl : ∀ c ∈ l, p c = true) (hr : ∀ c, r.head? = some c → p c = false) :
    (l ++ r).takeWhile p = l ∧ (l ++ r).dropWhile p = r := by
  induction l with
  | nil =>
    simp only [List.nil_append]
    cases r with
    | nil => simp
    | cons c r2 =>
      have hc := hr c rfl
      simp [List.takeWhile, List.dropWhile, hc]
  | cons a l ih =>
    have ha : p a = true := hl a (List.mem_cons_self a l)
    have ih2 := ih fun c hc => hl c (List.mem_cons_of_mem a hc)
    simp [List.takeWhile, List.dropWhile, ha, ih2.1, ih2.2]

/-- `skipWs` leaves a list headed by a non-whitespace character alone. -/
theorem skipWs_cons_not_ws {c : Char} (h : isWsChar c = false) (cs : List Char) :
    skipWs (c :: cs) = c :: cs := by
  simp [skipWs, h]

/-- `skipWs` drops a whitespace head. -/
theorem skipWs_cons_ws {c : Char} (h : isWsChar c = true) (cs : List Char) :
    skipWs (c :: cs) = skipWs cs := by
  simp [skipWs, h]

/-- `parseValue` ignores a leading whitespace character. -/
theorem parseValue_cons_ws {c : Char} (h : isWsChar c = true) (f : Nat) (cs : List Char) :
    parseValue f (c :: cs) = parseValue f cs := by
  cases f with
  | zero => rfl
  | succ f2 =>
    have hs : skipWs (c :: cs) = skipWs cs := skipWs_cons_ws h cs
    simp only [parseValue, hs]

/-- Scanning an escaped string body recovers the original string and
stops right after the closing quote. -/
theorem scanString_escape (s : List Char) (rest : List Char) :
    scanString (escapeStr s ++ '"' :: rest) = some (s, rest) := by
  induction s generalizing rest with
  | nil =>
    show scanString (escapeStr [] ++ '"' :: rest) = some ([], rest)
    rw [show escapeStr [] = [] from rfl, List.nil_append]
    rw [scanString, if_pos rfl]
  | cons c s ih =>
    have hes : escapeStr (c :: s) = escapeChar c ++ escapeStr s := by
      simp [escapeStr]
    rw [hes, List.append_assoc]
    by_cases hq : c = '"'
    · subst hq
      rw [show escapeChar '"' = ['\\', '"'] from rfl]
      simp only [List.cons_append, List.nil_append]
      rw [scanString, if_neg (by decide : ¬('\\' : Char) = '"'),
        if_pos (rfl : ('\\' : Char) = '\\'), scanEsc,
        if_pos (by decide : ('"' : Char) = '"' ∨ ('"' : Char) = '\\' ∨ ('"' : Char) = '/'),
        ih]
      rfl
    · by_cases hb : c = '\\'
      · subst hb
        rw [show escapeChar '\\' = ['\\', '\\'] from rfl]
        simp only [List.cons_append, List.nil_append]
        rw [scanString, if_neg (by decide : ¬('\\' : Char) = '"'),
          if_pos (rfl : ('\\' : Char) = '\\'), scanEsc,
          if_pos (by decide :
            ('\\' : Char) = '"' ∨ ('\\' : Char) = '\\' ∨ ('\\' : Char) = '/'),
          ih]
        rfl
      · by_cases h8 : c.toNat = 8
        · have hc : c = Char.ofNat 8 := by rw [← Char.ofNat_toNat c, h8]
          subst hc
          rw [show escapeChar (Char.ofNat 8) = ['\\', 'b'] from rfl]
          simp only [List.cons_append, List.nil_append]
          rw [scanString, if_neg (by decide : ¬('\\' : Char) = '"'),
            if_pos (rfl : ('\\' : Char) = '\\'), scanEsc,
            if_neg (by decide :
              ¬(('b' : Char) = '"' ∨ ('b' : Char) = '\\' ∨ ('b' : Char) = '/')),
            if_pos (rfl : ('b' : Char) = 'b'), ih]
          rfl
        · by_cases h9 : c.toNat = 9
          · have hc : c = Char.ofNat 9 := by rw [← Char.ofNat_toNat c, h9]
            subst hc
            rw [show escapeChar (Char.ofNat 9) = ['\\', 't'] from rfl]
            simp only [List.cons_append, List.nil_append]
            rw [scanString, if_neg (by decide : ¬('\\' : Char) = '"'),
              if_pos (rfl : ('\\' : Char) = '\\'), scanEsc,
              if_neg (by decide :
                ¬(('t' : Char) = '"' ∨ ('t' : Char) = '\\' ∨ ('t' : Char) = '/')),
              if_neg (by decide : ¬('t' : Char) = 'b'),
              if_neg (by decide : ¬('t' : Char) = 'f'),
              if_neg (by decide : ¬('t' : Char) = 'n'),
              if_neg (by decide : ¬('t' : Char) = 'r'),
              if_pos (rfl : ('t' : Char) = 't'), ih]
            rfl
          · by_cases h10 : c.toNat = 10
            · have hc : c = Char.ofNat 10 := by rw [← Char.ofNat_toNat c, h10]
              subst hc
              rw [show escapeChar (Char.ofNat 10) = ['\\', 'n'] from rfl]
              simp only [List.cons_append, List.nil_append]
              rw [scanString, if_neg (by decide : ¬('\\' : Char) = '"'),
                if_pos (rfl : ('\\' : Char) = '\\'), scanEsc,
                if_neg (by decide :
                  ¬(('n' : Char) = '"' ∨ ('n' : Char) = '\\' ∨ ('n' : Char) = '/')),
                if_neg (by decide : ¬('n' : Char) = 'b'),
                if_neg (by decide : ¬('n' : Char) = 'f'),
                if_pos (rfl : ('n' : Char) = 'n'), ih]
              rfl
            · by_cases h12 : c.toNat = 12
              · have hc : c = Char.ofNat 12 := by rw [← Char.ofNat_toNat c, h12]
                subst hc
                rw [show escapeChar (Char.ofNat 12) = ['\\', 'f'] from rfl]
                simp only [List.cons_append, List.nil_append]
                rw [scanString, if_neg (by decide : ¬('\\' : Char) = '"'),
                  if_pos (rfl : ('\\' : Char) = '\\'), scanEsc,
                  if_neg (by decide :
                    ¬(('f' : Char) = '"' ∨ ('f' : Char) = '\\' ∨ ('f' : Char) = '/')),
                  if_neg (by decide : ¬('f' : Char) = 'b'),
                  if_pos (rfl : ('f' : Char) = 'f'), ih]
                rfl
              · by_cases h13 : c.toNat = 13
                · have hc : c = Char.ofNat 13 := by rw [← Char.ofNat_toNat c, h13]
                  subst hc
                  rw [show escapeChar (Char.ofNat 13) = ['\\', 'r'] from rfl]
                  simp only [List.cons_append, List.nil_append]
                  rw [scanString, if_neg (by decide : ¬('\\' : Char) = '"'),
                    if_pos (rfl : ('\\' : Char) = '\\'), scanEsc,
                    if_neg (by decide :
                      ¬(('r' : Char) = '"' ∨ ('r' : Char) = '\\' ∨ ('r' : Char) = '/')),
                    if_neg (by decide : ¬('r' : Char) = 'b'),
                    if_neg (by decide : ¬('r' : Char) = 'f'),
                    if_neg (by decide : ¬('r' : Char) = 'n'),
                    if_pos (rfl : ('r' : Char) = 'r'), ih]
                  rfl
                · by_cases hlt : c.toNat < 32
                  · have hdiv : c.toNat / 16 < 16 := by omega
                    have hmod : c.toNat % 16 < 16 := by omega
                    have he : escapeChar c = ['\\', 'u', '0', '0',
                        hexDigitChar (c.toNat / 16), hexDigitChar (c.toNat % 16)] := by
                      unfold escapeChar
                      rw [if_neg hq, if_neg hb, if_neg h8, if_neg h9, if_neg h10,
                        if_neg h12, if_neg h13, if_pos hlt]
                    rw [he]
                    simp only [List.cons_append, List.nil_append]
                    rw [scanString, if_neg (by decide : ¬('\\' : Char) = '"'),
                      if_pos (rfl : ('\\' : Char) = '\\'), scanEsc,
                      if_neg (by decide :
                        ¬(('u' : Char) = '"' ∨ ('u' : Char) = '\\' ∨ ('u' : Char) = '/')),
                      if_neg (by decide : ¬('u' : Char) = 'b'),
                      if_neg (by decide : ¬('u' : Char) = 'f'),
                      if_neg (by decide : ¬('u' : Char) = 'n'),
                      if_neg (by decide : ¬('u' : Char) = 'r'),
                      if_neg (by decide : ¬('u' : Char) = 't'),
                      if_pos (rfl : ('u' : Char) = 'u'), scanU]
                    rw [show hexVal '0' = some 0 from rfl,
                      hexVal_hexDigitChar _ hdiv, hexVal_hexDigitChar _ hmod]
                    simp only [ih, Option.map_some]
                    have hfix : ∀ N : Nat, N = c.toNat →
                        (some (Char.ofNat N :: s, rest) :
                            Option (List Char × List Char)) = some (c :: s, rest) := by
                      intro N hN
                      rw [hN, Char.ofNat_toNat]
                    apply hfix
                    omega
                  · have he : escapeChar c = [c] := by
                      unfold escapeChar
                      rw [if_neg hq, if_neg hb, if_neg h8, if_neg h9, if_neg h10,
                        if_neg h12, if_neg h13, if_neg hlt]
                    rw [he]
                    simp only [List.cons_append, List.nil_append]
                    rw [scanString, if_neg hq, if_neg hb, if_neg hlt, ih]
                    rfl

/-- A JSON string literal text parses to its string value. -/
theorem parsesTo_str (s : List Char) : ParsesTo (strText s) (Json.str s) := by
  refine ⟨1, fun f hf rest hrest => ?_⟩
  cases f with
  | zero => omega
  | succ f2 =>
    have hshape : strText s ++ rest = '"' :: (escapeStr s ++ '"' :: rest) := by
      simp [strText]
    rw [hshape]
    simp only [parseValue, skipWs_cons_not_ws (show isWsChar '"' = false by decide)]
    simp only [if_true]
    rw [scanString_escape]
    rfl

/-- A JSON boolean literal text parses to its boolean value. -/
theorem parsesTo_bool (b : Bool) : ParsesTo (boolText b) (Json.bool b) := by
  refine ⟨1, fun f hf rest hrest => ?_⟩
  cases f with
  | zero => omega
  | succ f2 =>
    cases b
    · show parseValue (f2 + 1) (('f' :: 'a' :: 'l' :: 's' :: 'e' :: []) ++ rest) =
        some (Json.bool false, rest)
      simp only [List.cons_append, List.nil_append]
      simp only [parseValue, skipWs_cons_not_ws (show isWsChar 'f' = false by decide)]
      rw [if_neg (by decide : ¬('f' : Char) = '"'), if_neg (by decide : ¬('f' : Char) = 't')]
      rfl
    · show parseValue (f2 + 1) (('t' :: 'r' :: 'u' :: 'e' :: []) ++ rest) =
        some (Json.bool true, rest)
      simp only [List.cons_append, List.nil_append]
      simp only [parseValue, skipWs_cons_not_ws (show isWsChar 't' = false by decide)]
      rw [if_neg (by decide : ¬('t' : Char) = '"')]
      rfl

/-- A rendered decimal number parses back to its value, as long as the
remainder does not begin with another digit. -/
theorem parsesTo_num (n : Nat) : ParsesTo (renderNat n) (Json.num n) := by
  refine ⟨1, fun f hf rest hrest => ?_⟩
  cases f with
  | zero => omega
  | succ f2 =>
    obtain ⟨d, ds, hshape⟩ : ∃ d ds, renderNat n = d :: ds := by
      cases hr : renderNat n with
      | nil => exact absurd hr (renderNat_ne_nil n)
      | cons d ds => exact ⟨d, ds, rfl⟩
    have hd : isDigitChar d = true :=
      renderNat_all_digits n d (by rw [hshape]; exact List.mem_cons_self _ _)
    have hdnat : 48 ≤ d.toNat ∧ d.toNat ≤ 57 := by
      unfold isDigitChar at hd
      simp only [Bool.and_eq_true, decide_eq_true_eq] at hd
      exact hd
    have hne : ∀ x : Char, ¬(48 ≤ x.toNat ∧ x.toNat ≤ 57) → ¬ d = x := by
      intro x hx h
      rw [h] at hdnat
      exact hx hdnat
    have hws : isWsChar d = false := by
      unfold isWsChar
      have h32 : ¬ d = ' ' := hne ' ' (by decide)
      have hnl : ¬ d = '\n' := hne '\n' (by decide)
      have htb : ¬ d = '\t' := hne '\t' (by decide)
      have hcr : ¬ d = '\r' := hne '\r' (by decide)
      simp [h32, hnl, htb, hcr]
    have hrest2 : ∀ c, rest.head? = some c → isDigitChar c = false := by
      intro c hc
      cases rest with
      | nil => simp at hc
      | cons c2 r2 =>
        simp only [List.head?_cons, Option.some.injEq] at hc
        subst hc
        unfold nonDigitHead at hrest
        simpa using hrest
    have htake := takeWhile_all_append isDigitChar (d :: ds) rest
      (by rw [← hshape]; exact renderNat_all_digits n) hrest2
    rw [hshape]
    simp only [List.cons_append]
    simp only [parseValue, skipWs_cons_not_ws hws]
    rw [if_neg (hne '"' (by decide)), if_neg (hne 't' (by decide)),
      if_neg (hne 'f' (by decide)), if_neg (hne '[' (by decide)),
      if_neg (hne '{' (by decide)), if_pos hd]
    rw [← List.cons_append, htake.1, htake.2, ← hshape, digitsVal_renderNat]

/-- `joinComma` of a nonempty list is its head followed by `sepTail`. -/
theorem joinComma_cons (x : List Char) (xs : List (List Char)) :
    joinComma (x :: xs) = x ++ sepTail xs := by
  induction xs generalizing x with
  | nil => simp [joinComma, sepTail]
  | cons y ys ih =>
    rw [show joinComma (x :: y :: ys) = x ++ ',' :: joinComma (y :: ys) from rfl, ih y]
    simp [sepTail]

/-- The continuation after one field or element never begins with a
digit: it begins with a comma or the closing character. -/
theorem nonDigitHead_sepTail (xs : List (List Char)) (close : Char)
    (hc : isDigitChar close = false) (rest : List Char) :
    nonDigitHead (sepTail xs ++ close :: rest) = true := by
  cases xs with
  | nil => simp [sepTail, nonDigitHead, hc]
  | cons a as => rfl

/-- One `"name": value` field parses to its (name, value) pair. -/
theorem oneField_parses (t : FieldT) (hp : ParsesTo t.2.1 t.2.2) :
    ∃ f0, ∀ f, f0 ≤ f → ∀ tail, nonDigitHead tail = true →
      parseOneField f ((strText t.1 ++ ':' :: t.2.1) ++ tail) = some ((t.1, t.2.2), tail) := by
  obtain ⟨fv, hv⟩ := hp
  refine ⟨fv + 1, fun f hf tail htail => ?_⟩
  obtain ⟨f2, rfl⟩ : ∃ f2, f = f2 + 1 := ⟨f - 1, by omega⟩
  have hshape : (strText t.1 ++ ':' :: t.2.1) ++ tail
      = '"' :: (escapeStr t.1 ++ '"' :: (':' :: (t.2.1 ++ tail))) := by
    simp [strText]
  rw [hshape]
  simp only [parseOneField, skipWs_cons_not_ws (show isWsChar '"' = false by decide)]
  simp only [if_true]
  rw [scanString_escape]
  simp only [skipWs_cons_not_ws (show isWsChar ':' = false by decide)]
  simp only [if_true]
  rw [hv f2 (by omega) tail htail]

/-- The continuation of an object after its first field parses to the
remaining (name, value) pairs. -/
theorem fieldsTail_parses (l : List FieldT) (h : ∀ t ∈ l, ParsesTo t.2.1 t.2.2) :
    ∃ f0, ∀ f, f0 ≤ f → ∀ rest,
      parseFieldsTail f
          (sepTail (l.map fun t => strText t.1 ++ ':' :: t.2.1) ++ '}' :: rest)
        = some (l.map fun t => (t.1, t.2.2), rest) := by
  induction l with
  | nil =>
    refine ⟨1, fun f hf rest => ?_⟩
    obtain ⟨f2, rfl⟩ : ∃ f2, f = f2 + 1 := ⟨f - 1, by omega⟩
    simp only [List.map_nil, sepTail, List.nil_append]
    simp only [parseFieldsTail, skipWs_cons_not_ws (show isWsChar '}' = false by decide)]
    simp only [if_true]
  | cons t ts ih =>
    obtain ⟨ff, hf1⟩ := oneField_parses t (h t (List.mem_cons_self _ _))
    obtain ⟨ft, hft⟩ := ih fun x hx => h x (List.mem_cons_of_mem _ hx)
    refine ⟨max ff ft + 1, fun f hf rest => ?_⟩
    obtain ⟨f2, rfl⟩ : ∃ f2, f = f2 + 1 := ⟨f - 1, by omega⟩
    have hshape :
        sepTail ((t :: ts).map fun x => strText x.1 ++ ':' :: x.2.1) ++ '}' :: rest
          = ',' :: ((strText t.1 ++ ':' :: t.2.1) ++
              (sepTail (ts.map fun x => strText x.1 ++ ':' :: x.2.1) ++ '}' :: rest)) := by
      simp [sepTail]
    rw [hshape]
    simp only [parseFieldsTail, skipWs_cons_not_ws (show isWsChar ',' = false by decide)]
    rw [if_neg (by decide : ¬(',' : Char) = '}')]
    simp only [if_true]
    have htail := nonDigitHead_sepTail (ts.map fun x => strText x.1 ++ ':' :: x.2.1) '}'
      (by decide) rest
    simp only [hf1 f2 (by omega) _ htail]
    simp only [hft f2 (by omega) rest]
    rfl

/-- An object text parses to its object value. -/
theorem parsesTo_objT (l : List FieldT) (h : ∀ t ∈ l, ParsesTo t.2.1 t.2.2) :
    ParsesTo (objTextT l) (objJsonT l) := by
  cases l with
  | nil =>
    refine ⟨2, fun f hf rest hrest => ?_⟩
    obtain ⟨f2, rfl⟩ : ∃ f2, f = f2 + 2 := ⟨f - 2, by omega⟩
    have hshape : objTextT [] ++ rest = '{' :: '}' :: rest := rfl
    rw [hshape]
    simp only [parseValue, skipWs_cons_not_ws (show isWsChar '{' = false by decide)]
    rw [if_neg (by decide : ¬('{' : Char) = '"'), if_neg (by decide : ¬('{' : Char) = 't'),
      if_neg (by decide : ¬('{' : Char) = 'f'), if_neg (by decide : ¬('{' : Char) = '[')]
    simp only [if_true]
    simp only [parseFields, skipWs_cons_not_ws (show isWsChar '}' = false by decide)]
    simp only [if_true]
    rfl
  | cons t ts =>
    obtain ⟨ff, hf1⟩ := oneField_parses t (h t (List.mem_cons_self _ _))
    obtain ⟨ft, hft⟩ := fieldsTail_parses ts fun x hx => h x (List.mem_cons_of_mem _ hx)
    refine ⟨max ff ft + 2, fun f hf rest hrest => ?_⟩
    obtain ⟨f2, rfl⟩ : ∃ f2, f = f2 + 2 := ⟨f - 2, by omega⟩
    have hshape : objTextT (t :: ts) ++ rest
        = '{' :: ((strText t.1 ++ ':' :: t.2.1) ++
            (sepTail (ts.map fun x => strText x.1 ++ ':' :: x.2.1) ++ '}' :: rest)) := by
      simp only [objTextT, List.map_cons, joinComma_cons]
      simp [List.append_assoc]
    rw [hshape]
    simp only [parseValue, skipWs_cons_not_ws (show isWsChar '{' = false by decide)]
    rw [if_neg (by decide : ¬('{' : Char) = '"'), if_neg (by decide : ¬('{' : Char) = 't'),
      if_neg (by decide : ¬('{' : Char) = 'f'), if_neg (by decide : ¬('{' : Char) = '[')]
    simp only [if_true]
    have hfirst : skipWs ((strText t.1 ++ ':' :: t.2.1) ++
        (sepTail (ts.map fun x => strText x.1 ++ ':' :: x.2.1) ++ '}' :: rest))
        = '"' :: (escapeStr t.1 ++ '"' :: (':' :: t.2.1 ++
            (sepTail (ts.map fun x => strText x.1 ++ ':' :: x.2.1) ++ '}' :: rest))) := by
      have : (strText t.1 ++ ':' :: t.2.1) ++
          (sepTail (ts.map fun x => strText x.1 ++ ':' :: x.2.1) ++ '}' :: rest)
          = '"' :: (escapeStr t.1 ++ '"' :: (':' :: t.2.1 ++
              (sepTail (ts.map fun x => strText x.1 ++ ':' :: x.2.1) ++ '}' :: rest))) := by
        simp [strText]
      rw [this]
      exact skipWs_cons_not_ws (by decide) _
    simp only [parseFields, hfirst]
    rw [if_neg (by decide : ¬('"' : Char) = '}')]
    have htail := nonDigitHead_sepTail (ts.map fun x => strText x.1 ++ ':' :: x.2.1) '}'
      (by decide) rest
    simp only [hf1 f2 (by omega) _ htail]
    simp only [hft f2 (by omega) rest]
    rfl

/-- The continuation of an array after its first element parses to the
remaining element values. -/
theorem elemsTail_parses (l : List (List Char × Json)) (h : ∀ t ∈ l, ParsesTo t.1 t.2) :
    ∃ f0, ∀ f, f0 ≤ f → ∀ rest,
      parseElemsTail f (sepTail (l.map Prod.fst) ++ ']' :: rest)
        = some (l.map Prod.snd, rest) := by
  induction l with
  | nil =>
    refine ⟨1, fun f hf rest => ?_⟩
    obtain ⟨f2, rfl⟩ : ∃ f2, f = f2 + 1 := ⟨f - 1, by omega⟩
    simp only [List.map_nil, sepTail, List.nil_append]
    simp only [parseElemsTail, skipWs_cons_not_ws (show isWsChar ']' = false by decide)]
    simp only [if_true]
  | cons t ts ih =>
    obtain ⟨fv, hv⟩ := h t (List.mem_cons_self _ _)
    obtain ⟨ft, hft⟩ := ih fun x hx => h x (List.mem_cons_of_mem _ hx)
    refine ⟨max fv ft + 1, fun f hf rest => ?_⟩
    obtain ⟨f2, rfl⟩ : ∃ f2, f = f2 + 1 := ⟨f - 1, by omega⟩
    have hshape : sepTail ((t :: ts).map Prod.fst) ++ ']' :: rest
        = ',' :: (t.1 ++ (sepTail (ts.map Prod.fst) ++ ']' :: rest)) := by
      simp [sepTail]
    rw [hshape]
    simp only [parseElemsTail, skipWs_cons_not_ws (show isWsChar ',' = false by decide)]
    rw [if_neg (by decide : ¬(',' : Char) = ']')]
    simp only [if_true]
    have htail := nonDigitHead_sepTail (ts.map Prod.fst) ']' (by decide) rest
    simp only [hv f2 (by omega) _ htail]
    simp only [hft f2 (by omega) rest]
    rfl

/-- An array text whose elements are serialized objects parses to its
array value. -/
theorem parsesTo_arrT (l : List (List Char × Json)) (h : ∀ t ∈ l, ParsesTo t.1 t.2)
    (hhead : ∀ t ∈ l, (t.1).head? = some '{') :
    ParsesTo (arrTextT l) (arrJsonT l) := by
  cases l with
  | nil =>
    refine ⟨2, fun f hf rest hrest => ?_⟩
    obtain ⟨f2, rfl⟩ : ∃ f2, f = f2 + 2 := ⟨f - 2, by omega⟩
    have hshape : arrTextT [] ++ rest = '[' :: ']' :: rest := rfl
    rw [hshape]
    simp only [parseValue, skipWs_cons_not_ws (show isWsChar '[' = false by decide)]
    rw [if_neg (by decide : ¬('[' : Char) = '"'), if_neg (by decide : ¬('[' : Char) = 't'),
      if_neg (by decide : ¬('[' : Char) = 'f')]
    simp only [if_true]
    simp only [parseElems, skipWs_cons_not_ws (show isWsChar ']' = false by decide)]
    simp only [if_true]
    rfl
  | cons t ts =>
    obtain ⟨fv, hv⟩ := h t (List.mem_cons_self _ _)
    obtain ⟨ft, hft⟩ := elemsTail_parses ts fun x hx => h x (List.mem_cons_of_mem _ hx)
    obtain ⟨c0, t1tl, hc0⟩ : ∃ c0 tl, t.1 = c0 :: tl := by
      cases ht : t.1 with
      | nil =>
        have hh := hhead t (List.mem_cons_self _ _)
        rw [ht] at hh
        simp at hh
      | cons c0 tl => exact ⟨c0, tl, rfl⟩
    have hc0brace : c0 = '{' := by
      have := hhead t (List.mem_cons_self _ _)
      rw [hc0] at this
      simpa using this
    subst hc0brace
    refine ⟨max fv ft + 2, fun f hf rest hrest => ?_⟩
    obtain ⟨f2, rfl⟩ : ∃ f2, f = f2 + 2 := ⟨f - 2, by omega⟩
    have hshape : arrTextT (t :: ts) ++ rest
        = '[' :: (t.1 ++ (sepTail (ts.map Prod.fst) ++ ']' :: rest)) := by
      simp only [arrTextT, List.map_cons, joinComma_cons]
      simp [List.append_assoc]
    rw [hshape]
    simp only [parseValue, skipWs_cons_not_ws (show isWsChar '[' = false by decide)]
    rw [if_neg (by decide : ¬('[' : Char) = '"'), if_neg (by decide : ¬('[' : Char) = 't'),
      if_neg (by decide : ¬('[' : Char) = 'f')]
    simp only [if_true]
    have hfirst : skipWs (t.1 ++ (sepTail (ts.map Prod.fst) ++ ']' :: rest))
        = '{' :: (t1tl ++ (sepTail (ts.map Prod.fst) ++ ']' :: rest)) := by
      rw [hc0, List.cons_append]
      exact skipWs_cons_not_ws (by decide) _
    simp only [parseElems, hfirst]
    rw [if_neg (by decide : ¬('{' : Char) = ']')]
    have htail := nonDigitHead_sepTail (ts.map Prod.fst) ']' (by decide) rest
    simp only [hv f2 (by omega) _ htail]
    simp only [hft f2 (by omega) rest]
    rfl

/-- The serialized header parses to its JSON object. -/
theorem headerText_parses (h : Header) : ParsesTo (headerText h) (headerJson h) := by
  apply parsesTo_objT
  intro t ht
  rcases h with ⟨v, sg, cg, ce⟩
  rcases sg with _ | sv
  · rcases cg with _ | cv
    · rcases ce with _ | bv
      · simp only [headerFieldsT] at ht
        simp at ht
        subst ht
        exact parsesTo_num v
      · simp only [headerFieldsT] at ht
        simp at ht
        rcases ht with rfl | rfl
        · exact parsesTo_num v
        · exact parsesTo_bool bv
    · rcases ce with _ | bv
      · simp only [headerFieldsT] at ht
        simp at ht
        rcases ht with rfl | rfl
        · exact parsesTo_num v
        · exact parsesTo_num cv
      · simp only [headerFieldsT] at ht
        simp at ht
        rcases ht with rfl | rfl | rfl
        · exact parsesTo_num v
        · exact parsesTo_num cv
        · exact parsesTo_bool bv
  · rcases cg with _ | cv
    · rcases ce with _ | bv
      · simp only [headerFieldsT] at ht
        simp at ht
        rcases ht with rfl | rfl
        · exact parsesTo_num v
        · exact parsesTo_num sv
      · simp only [headerFieldsT] at ht
        simp at ht
        rcases ht with rfl | rfl | rfl
        · exact parsesTo_num v
        · exact parsesTo_num sv
        · exact parsesTo_bool bv
    · rcases ce with _ | bv
      · simp only [headerFieldsT] at ht
        simp at ht
        rcases ht with rfl | rfl | rfl
        · exact parsesTo_num v
        · exact parsesTo_num sv
        · exact parsesTo_num cv
      · simp only [headerFieldsT] at ht
        simp at ht
        rcases ht with rfl | rfl | rfl | rfl
        · exact parsesTo_num v
        · exact parsesTo_num sv
        · exact parsesTo_num cv
        · exact parsesTo_bool bv

/-- Every field of a serialized block is a string field. -/
theorem blockFieldsT_str (b : Block) :
    ∀ t ∈ blockFieldsT b, ∃ nm s, t = (nm, strText s, Json.str s) := by
  intro t ht
  simp only [blockFieldsT, strFieldT, List.mem_cons] at ht
  rcases ht with rfl | rfl | rfl | ht
  · exact ⟨_, _, rfl⟩
  · exact ⟨_, _, rfl⟩
  · exact ⟨_, _, rfl⟩
  · rcases List.mem_append.mp ht with h12 | h3
    · rcases List.mem_append.mp h12 with hA | hB
      · by_cases hst : b.short_text = ""
        · rw [if_pos hst] at hA
          exact absurd hA (List.not_mem_nil _)
        · rw [if_neg hst] at hA
          rw [List.mem_singleton] at hA
          subst hA
          exact ⟨_, _, rfl⟩
      · rcases hco : b.color with _ | c
        · rw [hco] at hB
          exact absurd hB (List.not_mem_nil _)
        · rw [hco] at hB
          rw [List.mem_singleton] at hB
          subst hB
          exact ⟨_, _, rfl⟩
    · rw [List.mem_singleton] at h3
      subst h3
      exact ⟨_, _, rfl⟩

/-- The serialized block parses to its JSON object. -/
theorem blockText_parses (b : Block) : ParsesTo (blockText b) (blockJson b) := by
  apply parsesTo_objT
  intro t ht
  obtain ⟨nm, s, rfl⟩ := blockFieldsT_str b t ht
  exact parsesTo_str s

/-- A serialized block begins with an opening brace. -/
theorem blockText_head (b : Block) : (blockText b).head? = some '{' := rfl

/-- The serialized snapshot parses to its JSON array. -/
theorem snapText_parses (snap : List Block) : ParsesTo (snapText snap) (snapJson snap) := by
  apply parsesTo_arrT
  · intro t ht
    simp only [snapPairs, List.mem_map] at ht
    obtain ⟨b, hb, rfl⟩ := ht
    exact blockText_parses b
  · intro t ht
    simp only [snapPairs, List.mem_map] at ht
    obtain ⟨b, hb, rfl⟩ := ht
    exact blockText_head b

/-- The continuation of the protocol's unbounded array after its seeded
empty first element parses to one value per emitted record. -/
theorem bigTail_parses (l : List (List Char × Json)) (h : ∀ t ∈ l, ParsesTo t.1 t.2) :
    ∃ f0, ∀ f, f0 ≤ f → ∀ rest,
      parseElemsTail f ('\n' :: (emitsTailText (l.map Prod.fst) ++ ']' :: rest))
        = some (l.map Prod.snd, rest) := by
  induction l with
  | nil =>
    refine ⟨1, fun f hf rest => ?_⟩
    obtain ⟨f2, rfl⟩ : ∃ f2, f = f2 + 1 := ⟨f - 1, by omega⟩
    simp only [List.map_nil, emitsTailText, List.nil_append]
    have hsk : skipWs ('\n' :: ']' :: rest) = ']' :: rest := by
      rw [skipWs_cons_ws (by decide)]
      exact skipWs_cons_not_ws (by decide) _
    simp only [parseElemsTail, hsk]
    simp only [if_true]
  | cons t ts ih =>
    obtain ⟨fv, hv⟩ := h t (List.mem_cons_self _ _)
    obtain ⟨ft, hft⟩ := ih fun x hx => h x (List.mem_cons_of_mem _ hx)
    refine ⟨max fv ft + 1, fun f hf rest => ?_⟩
    obtain ⟨f2, rfl⟩ : ∃ f2, f = f2 + 1 := ⟨f - 1, by omega⟩
    have hshape : '\n' :: (emitsTailText ((t :: ts).map Prod.fst) ++ ']' :: rest)
        = '\n' :: ',' :: ('\n' :: (t.1 ++
            ('\n' :: (emitsTailText (ts.map Prod.fst) ++ ']' :: rest)))) := by
      simp [emitsTailText]
    rw [hshape]
    have hsk : skipWs ('\n' :: ',' :: ('\n' :: (t.1 ++
        ('\n' :: (emitsTailText (ts.map Prod.fst) ++ ']' :: rest)))))
        = ',' :: ('\n' :: (t.1 ++
            ('\n' :: (emitsTailText (ts.map Prod.fst) ++ ']' :: rest)))) := by
      rw [skipWs_cons_ws (by decide)]
      exact skipWs_cons_not_ws (by decide) _
    simp only [parseElemsTail, hsk]
    rw [if_neg (by decide : ¬(',' : Char) = ']')]
    simp only [if_true]
    rw [parseValue_cons_ws (by decide)]
    have htail : nonDigitHead
        ('\n' :: (emitsTailText (ts.map Prod.fst) ++ ']' :: rest)) = true := rfl
    simp only [hv f2 (by omega) _ htail]
    simp only [hft f2 (by omega) rest]
    rfl

/-- A compact empty array parses immediately. -/
theorem emptyArr_parses (f : Nat) (rest : List Char) :
    parseValue (f + 2) ('[' :: ']' :: rest) = some (Json.arr [], rest) := by
  simp only [parseValue, skipWs_cons_not_ws (show isWsChar '[' = false by decide)]
  rw [if_neg (by decide : ¬('[' : Char) = '"'), if_neg (by decide : ¬('[' : Char) = 't'),
    if_neg (by decide : ¬('[' : Char) = 'f')]
  simp only [if_true]
  simp only [parseElems, skipWs_cons_not_ws (show isWsChar ']' = false by decide)]
  simp only [if_true]

/-- The whole unbounded array region of the wire stream — the `"[ []"`
record, one comma-plus-snapshot group per emit, and the closing record —
parses to the array whose first element is the empty array followed by
one value per emit. -/
theorem bigArray_parses (l : List (List Char × Json)) (h : ∀ t ∈ l, ParsesTo t.1 t.2) :
    ∃ f0, ∀ f, f0 ≤ f → ∀ rest,
      parseValue f ('[' :: ' ' :: '[' :: ']' :: '\n' ::
          (emitsTailText (l.map Prod.fst) ++ ']' :: rest))
        = some (Json.arr (Json.arr [] :: l.map Prod.snd), rest) := by
  obtain ⟨ft, hft⟩ := bigTail_parses l h
  refine ⟨ft + 4, fun f hf rest => ?_⟩
  obtain ⟨f3, rfl⟩ : ∃ f3, f = f3 + 4 := ⟨f - 4, by omega⟩
  simp only [parseValue, skipWs_cons_not_ws (show isWsChar '[' = false by decide)]
  rw [if_neg (by decide : ¬('[' : Char) = '"'), if_neg (by decide : ¬('[' : Char) = 't'),
    if_neg (by decide : ¬('[' : Char) = 'f')]
  simp only [if_true]
  have hsk1 : skipWs (' ' :: '[' :: ']' :: '\n' ::
      (emitsTailText (l.map Prod.fst) ++ ']' :: rest))
      = '[' :: ']' :: '\n' :: (emitsTailText (l.map Prod.fst) ++ ']' :: rest) := by
    rw [skipWs_cons_ws (by decide)]
    exact skipWs_cons_not_ws (by decide) _
  simp only [parseElems, hsk1]
  rw [if_neg (by decide : ¬('[' : Char) = ']')]
  rw [parseValue_cons_ws (by decide)]
  simp only [emptyArr_parses]
  simp only [hft (f3 + 2) (by omega) rest]

/-- What one `refresh` appends to the sink: its comma record and its
snapshot record. -/
theorem foldl_refresh_buf (snaps : List (List Block)) (st : I3Protocol) :
    (snaps.foldl I3Protocol.refresh st).buf
      = st.buf ++ emitsTailText (snaps.map snapText) := by
  induction snaps generalizing st with
  | nil => simp [emitsTailText]
  | cons s ss ih =>
    rw [List.foldl_cons, ih]
    simp [I3Protocol.refresh, I3Protocol.refreshWith, I3Protocol.write_json,
      I3Protocol.write, emitsTailText]

/-- The bytes of a whole encoder lifetime, laid out record by record. -/
theorem protocolStream_eq (h : Header) (snaps : List (List Block)) :
    protocolStream h snaps
      = headerText h ++ '\n' :: ('[' :: ' ' :: '[' :: ']' :: '\n' ::
          (emitsTailText (snaps.map snapText) ++ ']' :: '\n' :: [])) := by
  simp [protocolStream, I3Protocol.drop, I3Protocol.new, I3Protocol.write,
    I3Protocol.write_json, foldl_refresh_buf]

/-- C2: decoding the concatenation of every record the encoder writes —
the header record from `new`, the `"[ []"` opening record, the comma and
array records of each `refresh`, and the closing record from `Drop` —
yields a single well-formed two-value document: the header object, then
one array whose first element is the empty array, followed by one
array-of-Block per `refresh` call, in call order; and no other decoding
is possible at any fuel. -/
theorem protocol_roundtrip (h : Header) (snaps : List (List Block)) :
    ∃ f0, (∀ f, f0 ≤ f →
        parseTwoDocs f (protocolStream h snaps)
          = some (headerJson h, Json.arr (Json.arr [] :: snaps.map snapJson))) ∧
      ∀ f d, parseTwoDocs f (protocolStream h snaps) = some d →
        d = (headerJson h, Json.arr (Json.arr [] :: snaps.map snapJson)) := by
  obtain ⟨fh, hh⟩ := headerText_parses h
  have hl : ∀ t ∈ snaps.map fun s => (snapText s, snapJson s), ParsesTo t.1 t.2 := by
    intro t ht
    simp only [List.mem_map] at ht
    obtain ⟨sn, hs, rfl⟩ := ht
    exact snapText_parses sn
  obtain ⟨fb, hb⟩ := bigArray_parses (snaps.map fun s => (snapText s, snapJson s)) hl
  have hmapf : (snaps.map fun s => (snapText s, snapJson s)).map Prod.fst
      = snaps.map snapText := by
    simp [List.map_map, Function.comp]
  have hmaps : (snaps.map fun s => (snapText s, snapJson s)).map Prod.snd
      = snaps.map snapJson := by
    simp [List.map_map, Function.comp]
  rw [hmapf, hmaps] at hb
  have hOK : ∀ f, max fh fb ≤ f →
      parseTwoDocs f (protocolStream h snaps)
        = some (headerJson h, Json.arr (Json.arr [] :: snaps.map snapJson)) := by
    intro f hf
    rw [protocolStream_eq]
    unfold parseTwoDocs
    have h1 := hh f (by omega)
      ('\n' :: ('[' :: ' ' :: '[' :: ']' :: '\n' ::
        (emitsTailText (snaps.map snapText) ++ ']' :: '\n' :: []))) rfl
    simp only [h1]
    rw [parseValue_cons_ws (by decide)]
    have h2 := hb f (by omega) ('\n' :: [])
    simp only [h2]
    rfl
  refine ⟨max fh fb, hOK, ?_⟩
  intro f d hd
  unfold parseTwoDocs at hd
  cases hv1 : parseValue f (protocolStream h snaps) with
  | none =>
    simp only [hv1] at hd
    exact Option.noConfusion hd
  | some r1 =>
    simp only [hv1] at hd
    rcases r1 with ⟨d1, rest1⟩
    cases hv2 : parseValue f rest1 with
    | none =>
      simp only [hv2] at hd
      exact Option.noConfusion hd
    | some r2 =>
      simp only [hv2] at hd
      rcases r2 with ⟨d2, rest2⟩
      by_cases hws : skipWs rest2 = []
      · rw [if_pos hws] at hd
        have hOKF := hOK (max f (max fh fb)) (by omega)
        unfold parseTwoDocs at hOKF
        have hv1F : parseValue (max f (max fh fb)) (protocolStream h snaps)
            = some (d1, rest1) := parseValue_mono (by omega) hv1
        simp only [hv1F] at hOKF
        have hv2F : parseValue (max f (max fh fb)) rest1 = some (d2, rest2) :=
          parseValue_mono (by omega) hv2
        simp only [hv2F] at hOKF
        rw [if_pos hws] at hOKF
        rw [← Option.some.inj hd]
        exact Option.some.inj hOKF
      · rw [if_neg hws] at hd
        exact Option.noConfusion hd

/-- Witness for `protocol_roundtrip` at a concrete header and a
two-emission history. -/
theorem protocol_roundtrip_witness :
    ∃ f0, (∀ f, f0 ≤ f →
        parseTwoDocs f (protocolStream (Header.new 1) [[blockA], []])
          = some (headerJson (Header.new 1),
              Json.arr (Json.arr [] :: [[blockA], []].map snapJson))) ∧
      ∀ f d, parseTwoDocs f (protocolStream (Header.new 1) [[blockA], []]) = some d →
        d = (headerJson (Header.new 1),
          Json.arr (Json.arr [] :: [[blockA], []].map snapJson)) :=
  protocol_roundtrip (Header.new 1) [[blockA], []]

/-- The value reader fails outright when the next significant character
is a comma or a closing bracket. -/
theorem parseValue_comma_or_close (f : Nat) (cs : List Char) (c : Char)
    (hc : c = ',' ∨ c = ']') (rest2 : List Char) (hsk : skipWs cs = c :: rest2) :
    parseValue f cs = none := by
  cases f with
  | zero => rfl
  | succ f2 =>
    rcases hc with rfl | rfl
    · simp only [parseValue, hsk]
      rw [if_neg (by decide : ¬(',' : Char) = '"'), if_neg (by decide : ¬(',' : Char) = 't'),
        if_neg (by decide : ¬(',' : Char) = 'f'), if_neg (by decide : ¬(',' : Char) = '['),
        if_neg (by decide : ¬(',' : Char) = '{'),
        if_neg (by decide : ¬isDigitChar ',' = true)]
    · simp only [parseValue, hsk]
      rw [if_neg (by decide : ¬(']' : Char) = '"'), if_neg (by decide : ¬(']' : Char) = 't'),
        if_neg (by decide : ¬(']' : Char) = 'f'), if_neg (by decide : ¬(']' : Char) = '['),
        if_neg (by decide : ¬(']' : Char) = '{'),
        if_neg (by decide : ¬isDigitChar ']' = true)]

/-- After the good emissions, a bare comma record with no following value
record makes the array tail unreadable at every fuel: after the comma the
reader meets another comma or the closing bracket. -/
theorem bigTailBad_fails (l : List (List Char × Json)) (bad : List Char) (c : Char)
    (rest2 : List Char) (hc : c = ',' ∨ c = ']') (hskbad : skipWs bad = c :: rest2)
    (h : ∀ t ∈ l, ParsesTo t.1 t.2) :
    ∀ f, parseElemsTail f
        ('\n' :: (emitsTailText (l.map Prod.fst) ++ ',' :: '\n' :: bad)) = none := by
  induction l with
  | nil =>
    intro f
    cases f with
    | zero => rfl
    | succ f2 =>
      simp only [List.map_nil, emitsTailText, List.nil_append]
      have hsk : skipWs ('\n' :: ',' :: '\n' :: bad) = ',' :: ('\n' :: bad) := by
        rw [skipWs_cons_ws (by decide)]
        exact skipWs_cons_not_ws (by decide) _
      simp only [parseElemsTail, hsk]
      rw [if_neg (by decide : ¬(',' : Char) = ']')]
      simp only [if_true]
      have hpv : parseValue f2 ('\n' :: bad) = none := by
        rw [parseValue_cons_ws (by decide)]
        exact parseValue_comma_or_close f2 bad c hc rest2 hskbad
      simp only [hpv]
  | cons t ts ih =>
    intro f
    cases f with
    | zero => rfl
    | succ f2 =>
      obtain ⟨fv, hv⟩ := h t (List.mem_cons_self _ _)
      have hshape : '\n' :: (emitsTailText ((t :: ts).map Prod.fst) ++ ',' :: '\n' :: bad)
          = '\n' :: ',' :: ('\n' :: (t.1 ++
              ('\n' :: (emitsTailText (ts.map Prod.fst) ++ ',' :: '\n' :: bad)))) := by
        simp [emitsTailText]
      rw [hshape]
      have hsk : skipWs ('\n' :: ',' :: ('\n' :: (t.1 ++
          ('\n' :: (emitsTailText (ts.map Prod.fst) ++ ',' :: '\n' :: bad)))))
          = ',' :: ('\n' :: (t.1 ++
              ('\n' :: (emitsTailText (ts.map Prod.fst) ++ ',' :: '\n' :: bad)))) := by
        rw [skipWs_cons_ws (by decide)]
        exact skipWs_cons_not_ws (by decide) _
      simp only [parseElemsTail, hsk]
      rw [if_neg (by decide : ¬(',' : Char) = ']')]
      simp only [if_true]
      rw [parseValue_cons_ws (by decide)]
      cases hpv : parseValue f2 (t.1 ++
          ('\n' :: (emitsTailText (ts.map Prod.fst) ++ ',' :: '\n' :: bad))) with
      | none => simp only [hpv]
      | some r =>
        have hexp := hv (max f2 fv) (le_max_right _ _)
          ('\n' :: (emitsTailText (ts.map Prod.fst) ++ ',' :: '\n' :: bad)) rfl
        have hmono := parseValue_mono (le_max_left f2 fv) hpv
        rw [hmono] at hexp
        obtain rfl : r = (t.2, '\n' ::
            (emitsTailText (ts.map Prod.fst) ++ ',' :: '\n' :: bad)) :=
          Option.some.inj hexp
        simp only [hpv]
        simp only [ih (fun x hx => h x (List.mem_cons_of_mem _ hx)) f2]

/-- With a bare comma record inside it, the unbounded array region fails
to parse at every fuel. -/
theorem bigArrayBad_fails (l : List (List Char × Json)) (bad : List Char) (c : Char)
    (rest2 : List Char) (hc : c = ',' ∨ c = ']') (hskbad : skipWs bad = c :: rest2)
    (h : ∀ t ∈ l, ParsesTo t.1 t.2) :
    ∀ f, parseValue f ('[' :: ' ' :: '[' :: ']' :: '\n' ::
        (emitsTailText (l.map Prod.fst) ++ ',' :: '\n' :: bad)) = none := by
  intro f
  cases f with
  | zero => rfl
  | succ f4 =>
    simp only [parseValue, skipWs_cons_not_ws (show isWsChar '[' = false by decide)]
    rw [if_neg (by decide : ¬('[' : Char) = '"'), if_neg (by decide : ¬('[' : Char) = 't'),
      if_neg (by decide : ¬('[' : Char) = 'f')]
    simp only [if_true]
    cases f4 with
    | zero => rfl
    | succ f5 =>
      have hsk1 : skipWs (' ' :: '[' :: ']' :: '\n' ::
          (emitsTailText (l.map Prod.fst) ++ ',' :: '\n' :: bad))
          = '[' :: ']' :: '\n' :: (emitsTailText (l.map Prod.fst) ++ ',' :: '\n' :: bad) := by
        rw [skipWs_cons_ws (by decide)]
        exact skipWs_cons_not_ws (by decide) _
      simp only [parseElems, hsk1]
      rw [if_neg (by decide : ¬('[' : Char) = ']')]
      rw [parseValue_cons_ws (by decide)]
      cases f5 with
      | zero => rfl
      | succ f6 =>
        cases f6 with
        | zero =>
          simp only [parseValue, skipWs_cons_not_ws (show isWsChar '[' = false by decide)]
          rw [if_neg (by decide : ¬('[' : Char) = '"'),
            if_neg (by decide : ¬('[' : Char) = 't'),
            if_neg (by decide : ¬('[' : Char) = 'f')]
          simp only [if_true]
          simp only [parseElems]
        | succ f7 =>
          simp only [emptyArr_parses]
          simp only [bigTailBad_fails l bad c rest2 hc hskbad h (f7 + 2)]

/-- The bytes written when one mid-stream serialization fails, laid out
record by record: the failed `refresh` leaves exactly its bare comma
record behind. -/
theorem badStream_eq (h : Header) (pre post : List (List Block)) :
    badStream h pre post
      = headerText h ++ '\n' :: ('[' :: ' ' :: '[' :: ']' :: '\n' ::
          (emitsTailText (pre.map snapText) ++ ',' :: '\n' ::
            (emitsTailText (post.map snapText) ++ ']' :: '\n' :: []))) := by
  simp [badStream, I3Protocol.drop, I3Protocol.new, I3Protocol.refreshWith,
    I3Protocol.write_json, I3Protocol.write, foldl_refresh_buf]

/-- C10: in every `refresh`, the comma record is written before snapshot
serialization is attempted, so a failed serialization leaves a bare comma
record with no following array, and the overall byte stream then fails to
decode as the wire format at every fuel. -/
theorem comma_written_before_serialization (h : Header) (pre post : List (List Block)) :
    (I3Protocol.refreshWith (pre.foldl I3Protocol.refresh (I3Protocol.new h)) none).buf
      = (pre.foldl I3Protocol.refresh (I3Protocol.new h)).buf ++ ',' :: '\n' :: [] ∧
    ∀ f, parseTwoDocs f (badStream h pre post) = none := by
  constructor
  · simp [I3Protocol.refreshWith, I3Protocol.write_json, I3Protocol.write]
  · intro f
    have hskbad : ∃ c rest2,
        skipWs (emitsTailText (post.map snapText) ++ ']' :: '\n' :: []) = c :: rest2 ∧
          (c = ',' ∨ c = ']') := by
      cases post with
      | nil => exact ⟨']', '\n' :: [], rfl, Or.inr rfl⟩
      | cons p ps => exact ⟨',', _, rfl, Or.inl rfl⟩
    obtain ⟨c, rest2, hskb, hc⟩ := hskbad
    have hfl : ∀ t ∈ pre.map fun s => (snapText s, snapJson s), ParsesTo t.1 t.2 := by
      intro t ht
      simp only [List.mem_map] at ht
      obtain ⟨sn, hs, rfl⟩ := ht
      exact snapText_parses sn
    have hfail := bigArrayBad_fails (pre.map fun s => (snapText s, snapJson s))
      (emitsTailText (post.map snapText) ++ ']' :: '\n' :: []) c rest2 hc hskb hfl
    have hmapf : (pre.map fun s => (snapText s, snapJson s)).map Prod.fst
        = pre.map snapText := by
      simp [List.map_map, Function.comp]
    rw [hmapf] at hfail
    rw [badStream_eq]
    unfold parseTwoDocs
    cases hv1 : parseValue f (headerText h ++ '\n' :: ('[' :: ' ' :: '[' :: ']' :: '\n' ::
        (emitsTailText (pre.map snapText) ++ ',' :: '\n' ::
          (emitsTailText (post.map snapText) ++ ']' :: '\n' :: [])))) with
    | none => simp only [hv1]
    | some r1 =>
      obtain ⟨fh, hh⟩ := headerText_parses h
      have hexp := hh (max f fh) (le_max_right _ _)
        ('\n' :: ('[' :: ' ' :: '[' :: ']' :: '\n' ::
          (emitsTailText (pre.map snapText) ++ ',' :: '\n' ::
            (emitsTailText (post.map snapText) ++ ']' :: '\n' :: [])))) rfl
      have hmono := parseValue_mono (le_max_left f fh) hv1
      rw [hmono] at hexp
      obtain rfl : r1 = (headerJson h, '\n' :: ('[' :: ' ' :: '[' :: ']' :: '\n' ::
          (emitsTailText (pre.map snapText) ++ ',' :: '\n' ::
            (emitsTailText (post.map snapText) ++ ']' :: '\n' :: [])))) :=
        Option.some.inj hexp
      simp only [hv1]
      rw [parseValue_cons_ws (by decide)]
      simp only [hfail f]

/-- Witness for `no_segment_poll_keeps_snapshot` at a concrete state. -/
theorem no_segment_poll_keeps_snapshot_witness :
    ∃ st1, loopStep bsC5 stC5 = some st1 ∧
      st1.result_buffer = stC5.result_buffer ∧
      st1.emitted = stC5.emitted ++ [stC5.result_buffer] ∧
      st1.event_queue = [] ++ [⟨max stC5.now 2 + 3, 0⟩] :=
  no_segment_poll_keeps_snapshot bsC5 stC5 ⟨2, 0⟩ [] 3 rfl rfl

end I3monkit
